import Mathlib

/-
Shallow embedding of the project-path inference and backfill engine
(scripts/migrate_session_paths.py).

Python strings are modelled as `List Char` (a Python `str` is a sequence of
code points).  The filesystem and path library, which the engine touches only
through `Path.expanduser`, `Path.is_absolute`, `Path.is_dir` and
`Path.resolve`, is modelled as an explicit oracle `FS`.  `json.loads` is an
external parser modelled as a function `List Char → Option JsonVal`; the
serializer `json.dumps(..., separators=(",", ":"), ensure_ascii=False)` is
implemented executably.  `Path.write_text` is an external primitive modelled
as an oracle `WriteOracle` that, given the old on-disk content and the text
to write, reports success or failure together with the content the file holds
afterwards (an honest success leaves exactly the written text).
-/

/-- ASCII whitespace as stripped by Python `str.strip()` (Python additionally
strips some rare Unicode space characters; the engine's inputs of interest
are unaffected). -/
def pySpace (c : Char) : Bool :=
  c == ' ' || c == '\t' || c == '\n' || c == '\r' || c == '\x0b' || c == '\x0c'

/-- Line boundaries recognised by Python `str.splitlines()`. -/
def pyLineBreak (c : Char) : Bool :=
  c == '\n' || c == '\r' || c == '\x0b' || c == '\x0c' || c == '\x1c' ||
  c == '\x1d' || c == '\x1e' || c == '\x85' || c == '\u2028' || c == '\u2029'

/-- Remove the maximal suffix of characters satisfying `p`
(Python `str.rstrip`, with `p` the stripped character class). -/
def rstripP (p : Char → Bool) : List Char → List Char
  | [] => []
  | c :: t =>
    let r := rstripP p t
    if r.isEmpty && p c then [] else c :: r

/-- Python `str.strip()`: drop whitespace from both ends. -/
def pyStrip (l : List Char) : List Char := rstripP pySpace (l.dropWhile pySpace)

/-- First element of Python `str.splitlines()` for a non-empty string:
the prefix up to the first line boundary. -/
def firstLine (l : List Char) : List Char := l.takeWhile (fun c => !pyLineBreak c)

/-- Python `str.find`: index of the first occurrence of `pat` in `hay`
(`none` models the return value `-1`). -/
def pyFind (hay pat : List Char) : Option Nat :=
  if pat.isPrefixOf hay then some 0
  else
    match hay with
    | [] => none
    | _ :: t => (pyFind t pat).map Nat.succ

/-- Filesystem / path-library oracle.  `expanduser` models
`str(Path(s).expanduser())` (pure path-syntax rewriting of a leading `~`),
`isDir` models `Path.is_dir` on the live filesystem, and `resolve` models
`str(Path(s).resolve())`. -/
structure FS where
  expanduser : List Char → List Char
  isDir : List Char → Bool
  resolve : List Char → List Char

/-- Model of `PurePosixPath.is_absolute`: the path string has a root. -/
def isAbsolute (p : List Char) : Bool := ("/".toList).isPrefixOf p

/-- Function `is_abs_dir` from the source: expand the user home, then require the
result to be absolute and an existing directory. -/
def is_abs_dir (fs : FS) (s : List Char) : Bool :=
  let p := fs.expanduser s
  isAbsolute p && fs.isDir p

/-- Function `normalize_path` from the source: `str(Path(s).expanduser().resolve())`. -/
def normalize_path (fs : FS) (s : List Char) : List Char :=
  fs.resolve (fs.expanduser s)

/-- Constant `PROJECT_ROOT_MARKERS` from the source. -/
def PROJECT_ROOT_MARKERS : List (List Char) :=
  ["Active project root:".toList, "Project set to".toList]

/-- The sentinel-marker extraction step of `infer_project_path` for one marker
on one turn's content: `idx = content.find(marker)`; when found,
`maybe = content[idx + len(marker):].strip()`; if `maybe` starts with `/`,
`line = maybe.splitlines()[0].strip()` is appended when non-empty. -/
def markerCandidatesFor (m content : List Char) : List (List Char) :=
  match pyFind content m with
  | none => []
  | some idx =>
    let maybe := pyStrip (content.drop (idx + m.length))
    if ("/".toList).isPrefixOf maybe then
      let line := pyStrip (firstLine maybe)
      if line.isEmpty then [] else [line]
    else []

/-- Characters allowed inside a path-shaped token: the regex class
`[^\s"'<>]` of `extract_absolute_paths`. -/
def pathChar (c : Char) : Bool :=
  !(pySpace c || c == '"' || c == '\'' || c == '<' || c == '>')

/-- Scanner for `findSlashTokens`, structurally recursive on a fuel bound.
Every recursive call is on a strictly shorter list (a suffix of `rest`), so
fuel equal to the input length never runs out. -/
def findSlashTokensGo : Nat → List Char → List (List Char)
  | 0, _ => []
  | _ + 1, [] => []
  | fuel + 1, c :: rest =>
    if c == '/' then
      let run := rest.takeWhile pathChar
      if run.isEmpty then findSlashTokensGo fuel rest
      else ('/' :: run) :: findSlashTokensGo fuel (rest.dropWhile pathChar)
    else findSlashTokensGo fuel rest

/-- All matches of the regex `(/[^\s"'<>]+)` in left-to-right,
leftmost-longest order, as produced by `re.findall`. -/
def findSlashTokens (l : List Char) : List (List Char) :=
  findSlashTokensGo l.length l

/-- The trailing punctuation stripped from each token:
`c.rstrip(".,;:)]}")`. -/
def punctChar (c : Char) : Bool :=
  c == '.' || c == ',' || c == ';' || c == ':' || c == ')' || c == ']' || c == '\x7d'

/-- Function `extract_absolute_paths` from the source: find slash-prefixed tokens,
strip trailing punctuation, and drop tokens starting with `//`. -/
def extract_absolute_paths (text : List Char) : List (List Char) :=
  (findSlashTokens text).filterMap fun tok =>
    let c := rstripP punctChar tok
    if ("//".toList).isPrefixOf c then none else some c

/-- JSON-like values as produced by `json.loads`: the payloads the engine
reads and writes. -/
inductive JsonVal where
  | null : JsonVal
  | bool : Bool → JsonVal
  | num : Int → JsonVal
  | str : List Char → JsonVal
  | arr : List JsonVal → JsonVal
  | obj : List (List Char × JsonVal) → JsonVal

mutual

/-- Boolean equality on `JsonVal` (the automatic derivation does not handle
the nested inductive). -/
def jeq : JsonVal → JsonVal → Bool
  | .null, .null => true
  | .bool x, .bool y => x == y
  | .num x, .num y => x == y
  | .str x, .str y => x == y
  | .arr xs, .arr ys => jeqList xs ys
  | .obj xs, .obj ys => jeqObj xs ys
  | _, _ => false

def jeqList : List JsonVal → List JsonVal → Bool
  | [], [] => true
  | x :: xs, y :: ys => jeq x y && jeqList xs ys
  | _, _ => false

def jeqObj : List (List Char × JsonVal) → List (List Char × JsonVal) → Bool
  | [], [] => true
  | (k, v) :: xs, (k2, v2) :: ys => k == k2 && jeq v v2 && jeqObj xs ys
  | _, _ => false

end

mutual

def jeq_iff : ∀ (a b : JsonVal), jeq a b = true ↔ a = b
  | .null, b => by cases b <;> simp [jeq]
  | .bool x, b => by cases b <;> simp [jeq]
  | .num x, b => by cases b <;> simp [jeq]
  | .str x, b => by cases b <;> simp [jeq]
  | .arr xs, b => by cases b <;> simp [jeq] <;> exact jeqList_iff xs _
  | .obj xs, b => by cases b <;> simp [jeq] <;> exact jeqObj_iff xs _

def jeqList_iff : ∀ (a b : List JsonVal), jeqList a b = true ↔ a = b
  | [], [] => by simp [jeqList]
  | [], _ :: _ => by simp [jeqList]
  | _ :: _, [] => by simp [jeqList]
  | x :: xs, y :: ys => by
    simp [jeqList, jeq_iff x y, jeqList_iff xs ys]

def jeqObj_iff : ∀ (a b : List (List Char × JsonVal)), jeqObj a b = true ↔ a = b
  | [], [] => by simp [jeqObj]
  | [], _ :: _ => by simp [jeqObj]
  | _ :: _, [] => by simp [jeqObj]
  | (k, v) :: xs, (k2, v2) :: ys => by
    simp [jeqObj, jeq_iff v v2, jeqObj_iff xs ys, Prod.ext_iff, and_assoc]

end

instance : DecidableEq JsonVal := fun a b => decidable_of_iff _ (jeq_iff a b)

instance : Inhabited JsonVal := ⟨JsonVal.null⟩

/-- Python `dict` lookup on the ordered key/value list (keys are unique in
any value produced by `json.loads`; the first match is returned). -/
def lookupKey : List (List Char × JsonVal) → List Char → Option JsonVal
  | [], _ => none
  | (k, v) :: t, key => if k = key then some v else lookupKey t key

/-- Python `dict.__setitem__`: overwrite an existing key in place, otherwise
append the new key at the end (insertion order is preserved). -/
def setKey : List (List Char × JsonVal) → List Char → JsonVal → List (List Char × JsonVal)
  | [], key, val => [(key, val)]
  | (k, v) :: t, key, val =>
    if k = key then (key, val) :: t else (k, v) :: setKey t key val

/-- Model of `payload.get(k)` — total on `JsonVal`; the engine only calls it on
dict-shaped payloads. -/
def getKey (v : JsonVal) (key : List Char) : Option JsonVal :=
  match v with
  | .obj kvs => lookupKey kvs key
  | _ => none

def projectPathKey : List Char := "project_path".toList

def titleKey : List Char := "title".toList

def turnsKey : List Char := "turns".toList

def contentKey : List Char := "content".toList

/-- Candidates contributed by one turn's content: the sentinel-marker rule
for each marker in order, then every path-shaped token. -/
def turnCandidates (content : List Char) : List (List Char) :=
  (PROJECT_ROOT_MARKERS.flatMap fun m => markerCandidatesFor m content) ++
    extract_absolute_paths content

/-- Model of `payload.get("turns", [])` followed by the `isinstance(turns, list)`
guard: a missing or non-list `turns` contributes nothing. -/
def turnsOf (payload : JsonVal) : List JsonVal :=
  match getKey payload turnsKey with
  | some (.arr ts) => ts
  | _ => []

/-- The `content` string of a turn when the turn is dict-shaped and its
`content` value is a string. -/
def turnContent (turn : JsonVal) : Option (List Char) :=
  match turn with
  | .obj tkvs =>
    match lookupKey tkvs contentKey with
    | some (.str c) => some c
    | _ => none
  | _ => none

/-- The list `context_blob_parts`: the textual title (if any) followed by each turn's
textual content, in order. -/
def blobParts (payload : JsonVal) : List (List Char) :=
  (match getKey payload titleKey with
   | some (.str t) => [t]
   | _ => []) ++
  (turnsOf payload).filterMap turnContent

/-- The blob `context_blob = "\n".join(context_blob_parts)`. -/
def contextBlob (payload : JsonVal) : List Char :=
  List.intercalate ("\n".toList) (blobParts payload)

/-- The flat candidate list of `infer_project_path`: the stripped title when
the title starts with `/`, then each turn's candidates. -/
def extractCands (payload : JsonVal) : List (List Char) :=
  (match getKey payload titleKey with
   | some (.str t) => if ("/".toList).isPrefixOf t then [pyStrip t] else []
   | _ => []) ++
  (turnsOf payload).flatMap fun turn =>
    match turnContent turn with
    | some c => turnCandidates c
    | none => []

/-- Function `score_candidate` from the source: +10 for an existing absolute
directory, +50 per sentinel marker whose `"<marker> <path>"` occurs in the
context text, +2 for a `/home/` substring, plus the length prior
`max(0, 20 - len(path) // 8)` (automatic in `Nat` subtraction). -/
def score_candidate (fs : FS) (path context_text : List Char) : Nat :=
  let s1 := if is_abs_dir fs path then 10 else 0
  let s2 := PROJECT_ROOT_MARKERS.foldl
    (fun acc m => if (pyFind context_text (m ++ ' ' :: path)).isSome then acc + 50 else acc) s1
  let s3 := if (pyFind path ("/home/".toList)).isSome then s2 + 2 else s2
  s3 + (20 - path.length / 8)

/-- Deduplication with a `seen` set, keeping first occurrences. -/
def dedupGo (seen : List (List Char)) : List (List Char) → List (List Char)
  | [] => []
  | c :: cs => if c ∈ seen then dedupGo seen cs else c :: dedupGo (c :: seen) cs

def dedup (l : List (List Char)) : List (List Char) := dedupGo [] l

/-- The entry `ranked[0]` after `ranked.sort(key=lambda x: x[0], reverse=True)`:
Python's sort is stable and `reverse=True` keeps equal keys in input order,
so the head of the sorted list is the first pair attaining the maximal
score.  The `[]` case is unreachable (the caller guards on a non-empty
candidate list); it returns a junk pair. -/
def rankedTop : List (Nat × List Char) → Nat × List Char
  | [] => (0, [])
  | x :: xs => xs.foldl (fun b p => if b.1 < p.1 then p else b) x

/-- The scored, deduplicated candidate list of `infer_project_path`. -/
def rankedOf (fs : FS) (payload : JsonVal) : List (Nat × List Char) :=
  (dedup (extractCands payload)).map fun c =>
    (score_candidate fs c (contextBlob payload), c)

/-- The evidence-based part of `infer_project_path` (after the existing
`project_path` short-circuit): empty candidate list, sub-threshold top
score, or non-directory top candidate yield `none`. -/
def inferFromEvidence (fs : FS) (payload : JsonVal) : Option (List Char) :=
  if extractCands payload = [] then none
  else
    let best := rankedTop (rankedOf fs payload)
    if best.1 < 10 then none
    else if !is_abs_dir fs best.2 then none
    else some (normalize_path fs best.2)

/-- Function `infer_project_path` from the source. -/
def infer_project_path (fs : FS) (payload : JsonVal) : Option (List Char) :=
  match getKey payload projectPathKey with
  | some (.str s) =>
    if is_abs_dir fs s then some (normalize_path fs s) else inferFromEvidence fs payload
  | _ => inferFromEvidence fs payload

/-- The `isinstance(existing, str) and is_abs_dir(existing)` test of
`process_file` (and of the short-circuit in `infer_project_path`). -/
def existingValid (fs : FS) (kvs : List (List Char × JsonVal)) : Bool :=
  match lookupKey kvs projectPathKey with
  | some (.str s) => is_abs_dir fs s
  | _ => false

inductive Disposition where
  | updated : Disposition
  | skipped : Disposition
  | failed : Disposition
deriving DecidableEq

def hexDigit (n : Nat) : Char :=
  if n < 10 then Char.ofNat ('0'.toNat + n) else Char.ofNat ('a'.toNat + (n - 10))

/-- JSON string escaping as performed by `json.dumps(..., ensure_ascii=False)`. -/
def escapeChar (c : Char) : List Char :=
  if c == '"' then ['\\', '"']
  else if c == '\\' then ['\\', '\\']
  else if c == '\n' then ['\\', 'n']
  else if c == '\t' then ['\\', 't']
  else if c == '\r' then ['\\', 'r']
  else if c == '\x08' then ['\\', 'b']
  else if c == '\x0c' then ['\\', 'f']
  else if c.toNat < 32 then
    ['\\', 'u', '0', '0', hexDigit (c.toNat / 16), hexDigit (c.toNat % 16)]
  else [c]

def escapeStr (s : List Char) : List Char := s.flatMap escapeChar

mutual

/-- Serialization `json.dumps(v, separators=(",", ":"), ensure_ascii=False)`. -/
def dumps : JsonVal → List Char
  | .null => "null".toList
  | .bool b => if b then "true".toList else "false".toList
  | .num n => (toString n).toList
  | .str s => '"' :: (escapeStr s ++ ['"'])
  | .arr xs => '[' :: (dumpsArr xs ++ [']'])
  | .obj kvs => '\x7b' :: (dumpsObj kvs ++ ['\x7d'])

def dumpsArr : List JsonVal → List Char
  | [] => []
  | [v] => dumps v
  | v :: v' :: vs => dumps v ++ ',' :: dumpsArr (v' :: vs)

def dumpsObj : List (List Char × JsonVal) → List Char
  | [] => []
  | [(k, v)] => '"' :: (escapeStr k ++ '"' :: ':' :: dumps v)
  | (k, v) :: kv :: kvs =>
    ('"' :: (escapeStr k ++ '"' :: ':' :: dumps v)) ++ ',' :: dumpsObj (kv :: kvs)

end

/-- Result of `Path.write_text(text)` as an external primitive: given the old
content and the text to write, it reports success (`true`, the file then
holds exactly `text` for an honest filesystem) or raises (`false`), together
with the content the file holds afterwards — a failed write may leave the
old content, a truncated file, or any partial content, since `write_text`
opens with truncation before writing. -/
def WriteOracle : Type := List Char → List Char → Bool × List Char

/-- Outcome of `process_file` on one record file: the disposition, the
reported resolved path, the file's on-disk content afterwards, and (as an
observation used to state round-trip assumptions) the payload whose
serialization was successfully written, if any. -/
structure PResult where
  disp : Disposition
  resolved : Option (List Char)
  disk : List Char
  wrote : Option JsonVal
deriving DecidableEq

/-- The part of `process_file` after the existing-`project_path` check
failed: run inference; `if not inferred` (None or empty string) the record
is skipped; otherwise set the field and, in write mode, serialize compactly
with a trailing newline and attempt the write, downgrading to `failed` when
the write raises. -/
def process_rest (fs : FS) (w : WriteOracle) (kvs : List (List Char × JsonVal))
    (content : List Char) (write : Bool) : PResult :=
  match infer_project_path fs (.obj kvs) with
  | none => ⟨.skipped, none, content, none⟩
  | some p =>
    if p.isEmpty then ⟨.skipped, none, content, none⟩
    else
      let payload' := JsonVal.obj (setKey kvs projectPathKey (.str p))
      if write then
        let text := dumps payload' ++ ['\n']
        match w content text with
        | (true, d) => ⟨.updated, some p, d, some payload'⟩
        | (false, d) => ⟨.failed, none, d, none⟩
      else ⟨.updated, some p, content, none⟩

/-- Function `process_file` from the source.  `parse` models
`json.loads(path.read_text(encoding="utf-8"))`, with `none` for any raised
exception; a non-dict payload fails; a valid existing `project_path` is
authoritative and reported as skipped; otherwise inference and the optional
write run.  The `verbose` flag only prints and has no modelled effect. -/
def process_file (parse : List Char → Option JsonVal) (fs : FS) (w : WriteOracle)
    (content : List Char) (write verbose : Bool) : PResult :=
  match parse content with
  | none => ⟨.failed, none, content, none⟩
  | some (.obj kvs) =>
    match lookupKey kvs projectPathKey with
    | some (.str s) =>
      if is_abs_dir fs s then ⟨.skipped, some (normalize_path fs s), content, none⟩
      else process_rest fs w kvs content write
    | _ => process_rest fs w kvs content write
  | some _ => ⟨.failed, none, content, none⟩

/-- Aggregate state of one batch run of `main`: final file contents and
per-file dispositions in enumeration order, the four counters, and the list
of successfully written payloads. -/
structure BatchState where
  contents : List (List Char)
  disps : List Disposition
  scanned : Nat
  updated : Nat
  skipped : Nat
  failed : Nat
  writes : List JsonVal
deriving DecidableEq

/-- The loop of `main` over the sorted `context-*.json` files (each file is
given by its current content): process each file, bump `scanned` and exactly
one outcome counter according to the disposition. -/
def runBatch (parse : List Char → Option JsonVal) (fs : FS) (w : WriteOracle)
    (write verbose : Bool) : List (List Char) → BatchState
  | [] => ⟨[], [], 0, 0, 0, 0, []⟩
  | c :: cs =>
    let r := process_file parse fs w c write verbose
    let rest := runBatch parse fs w write verbose cs
    ⟨r.disk :: rest.contents,
     r.disp :: rest.disps,
     rest.scanned + 1,
     (if r.disp = .updated then 1 else 0) + rest.updated,
     (if r.disp = .skipped then 1 else 0) + rest.skipped,
     (if r.disp = .failed then 1 else 0) + rest.failed,
     r.wrote.toList ++ rest.writes⟩

/-- Exit status of `main`: `0 if failed == 0 else 1`. -/
def exitCode (b : BatchState) : Nat := if b.failed = 0 then 0 else 1

/-- All start indices at which `pat` occurs in `hay` — the "every
occurrence" notion used by the specification's description of the sentinel
rule. -/
def occAt (hay pat : List Char) : List Nat :=
  (List.range (hay.length + 1)).filter fun i => pat.isPrefixOf (hay.drop i)

/-- Predicate for `pat` occurring somewhere in `hay` (the specification's "appears verbatim"
relation, phrased through the occurrence positions). -/
def occursIn (pat hay : List Char) : Bool := !(occAt hay pat).isEmpty

/-- The sentinel extraction rule exactly as the specification words it:
for every occurrence of the marker, take the text immediately following the
marker up to the next line break, trim whitespace, and keep it iff the
remainder is non-empty and begins with `/`. -/
def claimMarkerCandidatesFor (m content : List Char) : List (List Char) :=
  (occAt content m).filterMap fun i =>
    let seg := pyStrip ((content.drop (i + m.length)).takeWhile fun c => !pyLineBreak c)
    if seg.isEmpty then none
    else if ("/".toList).isPrefixOf seg then some seg else none

/-- The amended sentinel rule: only the first occurrence of the marker in
the content contributes; all whitespace (line breaks included) following the
marker is skipped; if the first non-whitespace character is `/`, the text
from there up to the next line break, with trailing whitespace removed, is
the (automatically non-empty) candidate. -/
def amendedMarkerSpec (m content : List Char) : List (List Char) :=
  match pyFind content m with
  | none => []
  | some idx =>
    let after := (content.drop (idx + m.length)).dropWhile pySpace
    if ("/".toList).isPrefixOf after then
      [rstripP pySpace (after.takeWhile fun c => !pyLineBreak c)]
    else []

/-- The score formula exactly as the specification words it: 10 for passing
the directory check, 50 for each sentinel marker `m` such that the exact
substring `"<m> <c>"` occurs in the blob, 2 for a `/home/` substring, plus
the integer length prior `max(0, 20 − ⌊len(c)/8⌋)`. -/
def scoreSpec (fs : FS) (c t : List Char) : Int :=
  (if is_abs_dir fs c then 10 else 0)
  + 50 * (PROJECT_ROOT_MARKERS.countP fun m => decide (occursIn (m ++ ' ' :: c) t))
  + (if occursIn ("/home/".toList) c then 2 else 0)
  + max 0 (20 - (c.length : Int) / 8)

/-
Concrete fixtures used by witnesses and counterexamples: small filesystem
oracles, parse oracles covering exactly the contents that occur, and write
oracles for the success and failure cases.
-/

/-- A filesystem on which exactly the directory `/work/proj` exists;
`expanduser` and `resolve` are the identity (no `~`, no symlinks). -/
def fsYes : FS := ⟨fun s => s, fun p => p == "/work/proj".toList, fun s => s⟩

/-- A filesystem on which every path is an existing directory. -/
def fsAll : FS := ⟨fun s => s, fun _ => true, fun s => s⟩

/-- A filesystem on which no directory exists. -/
def fsNone : FS := ⟨fun s => s, fun _ => false, fun s => s⟩

/-- Fields of a record with only a path-shaped title and no `project_path`. -/
def kvsA : List (List Char × JsonVal) := [("title".toList, .str "/work/proj".toList)]

/-- A record with only a path-shaped title and no `project_path`. -/
def payloadA : JsonVal := .obj kvsA

/-- Original on-disk bytes of the record file holding `payloadA`. -/
def fileA : List Char := "A".toList

/-- Payload `payloadA` after the engine backfills `project_path`. -/
def payloadA2 : JsonVal :=
  .obj [("title".toList, .str "/work/proj".toList),
        ("project_path".toList, .str "/work/proj".toList)]

/-- The exact text the engine writes for `payloadA2`. -/
def textA : List Char := dumps payloadA2 ++ ['\n']

/-- Parse oracle for the `payloadA` scenario, also covering the re-read of
the rewritten file. -/
def parseA : List Char → Option JsonVal := fun s =>
  if s = fileA then some payloadA
  else if s = textA then some payloadA2
  else none

/-- An always-succeeding write primitive: the file afterwards holds exactly
the written text. -/
def wOk : WriteOracle := fun _ text => (true, text)

/-- A write primitive that fails leaving partial content `XX` (for example
the disk filled up after `write_text` had already truncated the file). -/
def wBad : WriteOracle := fun _ _ => (false, "XX".toList)

/-- Fields of a record whose `project_path` is already valid, with further
turn text containing a sentinel marker for a different path. -/
def kvsC5 : List (List Char × JsonVal) :=
  [("project_path".toList, .str "/work/proj".toList),
   ("turns".toList, .arr
     [.obj [("content".toList, .str "Active project root: /tmp/other".toList)]])]

/-- A record whose `project_path` is already valid, with further turn text
containing a sentinel marker for a different path. -/
def payloadC5 : JsonVal := .obj kvsC5

def fileC5 : List Char := "B".toList

def parseC5 : List Char → Option JsonVal := fun s =>
  if s = fileC5 then some payloadC5 else none

/-- Fields of a record with a path-shaped title `/a` (used with `fsNone`,
where the top-ranked candidate fails the directory check). -/
def kvsC4 : List (List Char × JsonVal) := [("title".toList, .str "/a".toList)]

/-- A record with a path-shaped title `/a`. -/
def payloadC4 : JsonVal := .obj kvsC4

def fileC4 : List Char := "C".toList

def parseC4 : List Char → Option JsonVal := fun s =>
  if s = fileC4 then some payloadC4 else none

/-- A file whose bytes do not parse as JSON. -/
def parseFailAll : List Char → Option JsonVal := fun _ => none

/-- A second filesystem oracle that agrees with `fsAll` on the directory
check for `/a` but differs everywhere else (different `resolve`, directories
existing only under `/a`). -/
def fsAlt : FS := ⟨fun s => s, fun p => p == "/a".toList, fun _ => "Z".toList⟩

/-
Helper lemmas about the Python string primitives.
-/

theorem dropWhile_head_false (p : Char → Bool) :
    ∀ (x : List Char) (c : Char) (t : List Char), x.dropWhile p = c :: t → p c = false := by
  intro x
  induction x with
  | nil => intro c t h; simp [List.dropWhile] at h
  | cons a x' ih =>
    intro c t h
    rw [List.dropWhile_cons] at h
    by_cases hpa : p a = true
    · rw [if_pos hpa] at h
      exact ih c t h
    · rw [if_neg hpa] at h
      injection h with h1 _
      subst h1
      simpa using hpa

theorem rstripP_cons_of_neg (p : Char → Bool) (c : Char) (t : List Char) (h : p c = false) :
    rstripP p (c :: t) = c :: rstripP p t := by
  simp [rstripP, h]

theorem rstripP_takeWhile_rstripP (p q : Char → Bool) :
    ∀ (t : List Char),
      rstripP p ((rstripP p t).takeWhile q) = rstripP p (t.takeWhile q) := by
  intro t
  induction t with
  | nil => rfl
  | cons c t' ih =>
    by_cases h1 : ((rstripP p t').isEmpty && p c) = true
    · have hr : rstripP p (c :: t') = [] := by simp [rstripP, h1]
      have he : rstripP p t' = [] := by
        have := (Bool.and_eq_true _ _).mp h1
        simpa [List.isEmpty_iff] using this.1
      have hc : p c = true := ((Bool.and_eq_true _ _).mp h1).2
      have h3 : rstripP p (t'.takeWhile q) = [] := by
        rw [← ih, he]; rfl
      rw [hr]
      by_cases h2 : q c = true
      · rw [List.takeWhile_cons, if_pos h2]
        simp [rstripP, h3, hc]
      · rw [List.takeWhile_cons, if_neg h2]
        rfl
    · have hr : rstripP p (c :: t') = c :: rstripP p t' := by simp [rstripP, h1]
      rw [hr]
      by_cases h2 : q c = true
      · rw [List.takeWhile_cons, if_pos h2, List.takeWhile_cons, if_pos h2]
        simp only [rstripP]
        rw [ih]
      · rw [List.takeWhile_cons, if_neg h2, List.takeWhile_cons, if_neg h2]

/-- C1 (amended): for each sentinel marker only the first occurrence in the
turn's content contributes a candidate.  The extractor skips all whitespace
(line breaks included) following that occurrence; if the first
non-whitespace character is `/`, the text from there up to the next line
break, with trailing whitespace removed, is added as the (automatically
non-empty) candidate.  In particular, a path beginning on a later line than
the marker is taken when the marker is followed only by whitespace. -/
theorem marker_rule_code_characterization (m content : List Char) :
    markerCandidatesFor m content = amendedMarkerSpec m content := by
  unfold markerCandidatesFor amendedMarkerSpec
  cases hf : pyFind content m with
  | none => rfl
  | some idx =>
    dsimp only
    have hslash : "/".toList = ['/'] := rfl
    cases ha : (content.drop (idx + m.length)).dropWhile pySpace with
    | nil =>
      have hstrip : pyStrip (content.drop (idx + m.length)) = [] := by
        rw [pyStrip, ha]; rfl
      rw [hstrip]
      rfl
    | cons c t =>
      have hc : pySpace c = false := dropWhile_head_false pySpace _ c t ha
      have hstrip : pyStrip (content.drop (idx + m.length)) = c :: rstripP pySpace t := by
        rw [pyStrip, ha, rstripP_cons_of_neg pySpace c t hc]
      rw [hstrip, hslash]
      by_cases h2 : c = '/'
      · subst h2
        have hq : (!pyLineBreak '/') = true := by decide
        have hps : pySpace '/' = false := by decide
        have hpre1 : (['/'] : List Char).isPrefixOf ('/' :: rstripP pySpace t) = true := by
          simp [List.isPrefixOf]
        have hpre2 : (['/'] : List Char).isPrefixOf ('/' :: t) = true := by
          simp [List.isPrefixOf]
        have hline : pyStrip (firstLine ('/' :: rstripP pySpace t)) =
            '/' :: rstripP pySpace (List.takeWhile (fun c => !pyLineBreak c) t) := by
          rw [firstLine, List.takeWhile_cons, if_pos hq]
          rw [pyStrip, List.dropWhile_cons, if_neg (by simp [hps])]
          rw [rstripP_cons_of_neg pySpace _ _ hps]
          rw [rstripP_takeWhile_rstripP pySpace _ t]
        have hright : rstripP pySpace
              (List.takeWhile (fun c => !pyLineBreak c) ('/' :: t)) =
            '/' :: rstripP pySpace (List.takeWhile (fun c => !pyLineBreak c) t) := by
          rw [List.takeWhile_cons, if_pos hq, rstripP_cons_of_neg pySpace _ _ hps]
        rw [if_pos hpre1, if_pos hpre2, hline, hright]
        rfl
      · have hpre1 : (['/'] : List Char).isPrefixOf (c :: rstripP pySpace t) = false := by
          simp [List.isPrefixOf]
          intro h
          exact absurd h.symm h2
        have hpre2 : (['/'] : List Char).isPrefixOf (c :: t) = false := by
          simp [List.isPrefixOf]
          intro h
          exact absurd h.symm h2
        rw [if_neg (by simp [hpre1]), if_neg (by simp [hpre2])]

/-- C1 (counterexample): the extraction rule as the claim states it
disagrees with the code.  With `"Project set to x\nProject set to /b"`, the
claim's per-occurrence rule yields `/b` from the second occurrence while the
code, which only examines the first occurrence, yields nothing; with
`"Project set to\n/b"`, the claim's up-to-the-line-break rule yields nothing
while the code takes `/b` from the following line. -/
theorem marker_rule_spec_refuted :
    claimMarkerCandidatesFor ("Project set to".toList)
        ("Project set to x\nProject set to /b".toList) ≠
      markerCandidatesFor ("Project set to".toList)
        ("Project set to x\nProject set to /b".toList) ∧
    claimMarkerCandidatesFor ("Project set to".toList)
        ("Project set to\n/b".toList) ≠
      markerCandidatesFor ("Project set to".toList)
        ("Project set to\n/b".toList) := by
  decide

/-- C2 (counterexample): the score of a candidate against a fixed context
blob is not a function of the pair alone — it also consults the filesystem
through the directory check, so two filesystem states yield different
scores for the same `(candidate, blob)` pair. -/
theorem score_depends_on_filesystem :
    score_candidate fsAll ("/a".toList) [] ≠ score_candidate fsNone ("/a".toList) [] := by
  decide

/-- C2 (amended): scoring is a deterministic, structural function of the
candidate string, the context blob, and the single directory-check verdict
on the candidate; apart from that one filesystem-dependent predicate it
consults no external state and performs no I/O, so two scoring runs that
agree on the directory check agree on the score. -/
theorem score_structural_determinism (fs1 fs2 : FS) (c t : List Char)
    (h : is_abs_dir fs1 c = is_abs_dir fs2 c) :
    score_candidate fs1 c t = score_candidate fs2 c t := by
  unfold score_candidate
  rw [h]

/-- Witness for `score_structural_determinism`: two different filesystem
oracles agreeing on the check verdict for `/a` give it the same score. -/
theorem score_structural_determinism_witness :
    is_abs_dir fsAll ("/a".toList) = is_abs_dir fsAlt ("/a".toList) ∧
    score_candidate fsAll ("/a".toList) [] = score_candidate fsAlt ("/a".toList) [] :=
  ⟨by decide, score_structural_determinism fsAll fsAlt ("/a".toList) [] (by decide)⟩

theorem pyFind_isSome_iff_exists (pat : List Char) :
    ∀ (hay : List Char), (pyFind hay pat).isSome = true ↔
      ∃ i, pat.isPrefixOf (hay.drop i) = true := by
  intro hay
  induction hay with
  | nil =>
    rw [pyFind]
    by_cases h : pat.isPrefixOf ([] : List Char) = true
    · rw [if_pos h]
      simp only [Option.isSome_some, true_iff]
      exact ⟨0, h⟩
    · rw [if_neg h]
      constructor
      · intro hh
        simp at hh
      · rintro ⟨i, hi⟩
        rw [List.drop_nil] at hi
        exact absurd hi h
  | cons a t ih =>
    rw [pyFind]
    by_cases h : pat.isPrefixOf (a :: t) = true
    · rw [if_pos h]
      simp only [Option.isSome_some, true_iff]
      exact ⟨0, h⟩
    · rw [if_neg h]
      have hsome : ∀ (o : Option Nat), (o.map Nat.succ).isSome = o.isSome := by
        intro o
        cases o <;> rfl
      rw [hsome, ih]
      constructor
      · rintro ⟨i, hi⟩
        exact ⟨i + 1, by simpa using hi⟩
      · rintro ⟨i, hi⟩
        cases i with
        | zero => exact absurd (by simpa using hi) h
        | succ j => exact ⟨j, by simpa using hi⟩

theorem occursIn_true_iff (pat hay : List Char) :
    occursIn pat hay = true ↔ ∃ i, pat.isPrefixOf (hay.drop i) = true := by
  have hne : occursIn pat hay = true ↔ occAt hay pat ≠ [] := by
    unfold occursIn
    cases occAt hay pat <;> simp
  rw [hne]
  unfold occAt
  constructor
  · intro h
    rcases List.exists_mem_of_ne_nil _ h with ⟨i, hi⟩
    rcases List.mem_filter.mp hi with ⟨_, hp⟩
    exact ⟨i, hp⟩
  · rintro ⟨i, hi⟩
    intro hnil
    by_cases hle : i ≤ hay.length
    · have hmem : i ∈ List.range (hay.length + 1) := List.mem_range.mpr (by omega)
      have hmem2 : i ∈ (List.range (hay.length + 1)).filter
          fun j => pat.isPrefixOf (hay.drop j) := List.mem_filter.mpr ⟨hmem, hi⟩
      rw [hnil] at hmem2
      exact absurd hmem2 (List.not_mem_nil i)
    · have hd : hay.drop i = [] := List.drop_eq_nil_of_le (by omega)
      rw [hd] at hi
      have hp : pat = [] := by
        cases pat with
        | nil => rfl
        | cons x xs => simp [List.isPrefixOf] at hi
      have hi0 : pat.isPrefixOf (hay.drop hay.length) = true := by
        rw [List.drop_length, hp]
        rfl
      have hmem : hay.length ∈ List.range (hay.length + 1) := List.mem_range.mpr (by omega)
      have hmem2 : hay.length ∈ (List.range (hay.length + 1)).filter
          fun j => pat.isPrefixOf (hay.drop j) := List.mem_filter.mpr ⟨hmem, hi0⟩
      rw [hnil] at hmem2
      exact absurd hmem2 (List.not_mem_nil _)

theorem pyFind_isSome_eq_occursIn (pat hay : List Char) :
    (pyFind hay pat).isSome = occursIn pat hay := by
  have h1 := pyFind_isSome_iff_exists pat hay
  have h2 := occursIn_true_iff pat hay
  cases ho : occursIn pat hay
  · rw [ho] at h2
    cases hs : (pyFind hay pat).isSome
    · rfl
    · rw [hs] at h1
      exact absurd (h2.mpr (h1.mp rfl)) (by simp)
  · rw [ho] at h2
    cases hs : (pyFind hay pat).isSome
    · rw [hs] at h1
      exact absurd (h1.mpr (h2.mp rfl)) (by simp)
    · rfl

set_option maxHeartbeats 1000000 in
/-- C3: the computed score equals the sum of exactly the four components
the specification lists: 10 for passing the directory check, 50 for each
sentinel marker whose `"<marker> <candidate>"` occurs verbatim in the blob,
2 for containing `/home/`, and `max(0, 20 − ⌊length/8⌋)`. -/
theorem score_formula (fs : FS) (c t : List Char) :
    (score_candidate fs c t : Int) = scoreSpec fs c t := by
  unfold score_candidate scoreSpec
  have hm : PROJECT_ROOT_MARKERS =
      ["Active project root:".toList, "Project set to".toList] := rfl
  rw [hm]
  simp only [List.foldl_cons, List.foldl_nil, List.countP_cons, List.countP_nil]
  have e1 := pyFind_isSome_eq_occursIn ("Active project root:".toList ++ ' ' :: c) t
  have e2 := pyFind_isSome_eq_occursIn ("Project set to".toList ++ ' ' :: c) t
  have e3 := pyFind_isSome_eq_occursIn ("/home/".toList) c
  have hdiv : ((c.length : Int)) / 8 = ((c.length / 8 : Nat) : Int) := by omega
  rw [e1, e2, e3]
  cases h1 : is_abs_dir fs c <;>
    cases h2 : occursIn ("Active project root:".toList ++ ' ' :: c) t <;>
      cases h3 : occursIn ("Project set to".toList ++ ' ' :: c) t <;>
        cases h4 : occursIn ("/home/".toList) c <;>
          simp only [hdiv, max_def, eq_self_iff_true, if_true, if_false] <;>
            split_ifs <;> first | omega | simp_all

/-
Helper lemmas characterising the branches of `process_file` and
`process_rest`, shared by the claim theorems below.
-/

theorem process_file_parse_fail (parse : List Char → Option JsonVal) (fs : FS)
    (w : WriteOracle) (content : List Char) (write verbose : Bool)
    (hp : parse content = none) :
    process_file parse fs w content write verbose = ⟨.failed, none, content, none⟩ := by
  unfold process_file
  rw [hp]

theorem process_file_not_dict (parse : List Char → Option JsonVal) (fs : FS)
    (w : WriteOracle) (content : List Char) (write verbose : Bool) (v : JsonVal)
    (hp : parse content = some v) (hv : ∀ kvs, v ≠ JsonVal.obj kvs) :
    process_file parse fs w content write verbose = ⟨.failed, none, content, none⟩ := by
  unfold process_file
  rw [hp]
  cases v with
  | obj kvs => exact absurd rfl (hv kvs)
  | null => rfl
  | bool b => rfl
  | num n => rfl
  | str s => rfl
  | arr a => rfl

theorem process_file_existing_eq (parse : List Char → Option JsonVal) (fs : FS)
    (w : WriteOracle) (content : List Char) (write verbose : Bool)
    (kvs : List (List Char × JsonVal)) (s : List Char)
    (hp : parse content = some (JsonVal.obj kvs))
    (hk : lookupKey kvs projectPathKey = some (JsonVal.str s))
    (hd : is_abs_dir fs s = true) :
    process_file parse fs w content write verbose =
      ⟨.skipped, some (normalize_path fs s), content, none⟩ := by
  unfold process_file
  rw [hp]
  dsimp only
  rw [hk]
  dsimp only
  rw [if_pos hd]

theorem process_file_not_existing (parse : List Char → Option JsonVal) (fs : FS)
    (w : WriteOracle) (content : List Char) (write verbose : Bool)
    (kvs : List (List Char × JsonVal))
    (hp : parse content = some (JsonVal.obj kvs))
    (hnv : existingValid fs kvs = false) :
    process_file parse fs w content write verbose = process_rest fs w kvs content write := by
  unfold process_file
  rw [hp]
  dsimp only
  unfold existingValid at hnv
  cases hke : lookupKey kvs projectPathKey with
  | none => rfl
  | some v =>
    rw [hke] at hnv
    cases v with
    | str s =>
      dsimp only at hnv ⊢
      rw [if_neg (by simp [hnv])]
    | null => rfl
    | bool b => rfl
    | num n => rfl
    | arr a => rfl
    | obj o => rfl

theorem process_rest_none (fs : FS) (w : WriteOracle)
    (kvs : List (List Char × JsonVal)) (content : List Char) (write : Bool)
    (h : infer_project_path fs (JsonVal.obj kvs) = none) :
    process_rest fs w kvs content write = ⟨.skipped, none, content, none⟩ := by
  unfold process_rest
  rw [h]

theorem process_rest_empty (fs : FS) (w : WriteOracle)
    (kvs : List (List Char × JsonVal)) (content : List Char) (write : Bool)
    (p : List Char)
    (h : infer_project_path fs (JsonVal.obj kvs) = some p)
    (hp : p.isEmpty = true) :
    process_rest fs w kvs content write = ⟨.skipped, none, content, none⟩ := by
  unfold process_rest
  rw [h]
  dsimp only
  rw [if_pos hp]

theorem process_rest_dry (fs : FS) (w : WriteOracle)
    (kvs : List (List Char × JsonVal)) (content : List Char)
    (p : List Char)
    (h : infer_project_path fs (JsonVal.obj kvs) = some p)
    (hp : p.isEmpty = false) :
    process_rest fs w kvs content false = ⟨.updated, some p, content, none⟩ := by
  unfold process_rest
  rw [h]
  dsimp only
  rw [if_neg (by simp [hp])]
  rfl

theorem process_rest_write_ok (fs : FS) (w : WriteOracle)
    (kvs : List (List Char × JsonVal)) (content : List Char)
    (p : List Char)
    (h : infer_project_path fs (JsonVal.obj kvs) = some p)
    (hp : p.isEmpty = false)
    (hw : w content
        (dumps (JsonVal.obj (setKey kvs projectPathKey (JsonVal.str p))) ++ ['\n']) =
      (true, dumps (JsonVal.obj (setKey kvs projectPathKey (JsonVal.str p))) ++ ['\n'])) :
    process_rest fs w kvs content true =
      ⟨.updated, some p,
        dumps (JsonVal.obj (setKey kvs projectPathKey (JsonVal.str p))) ++ ['\n'],
        some (JsonVal.obj (setKey kvs projectPathKey (JsonVal.str p)))⟩ := by
  unfold process_rest
  rw [h]
  dsimp only
  rw [if_neg (by simp [hp])]
  rw [if_pos rfl]
  rw [hw]

theorem process_rest_write_fail (fs : FS) (w : WriteOracle)
    (kvs : List (List Char × JsonVal)) (content : List Char)
    (p d : List Char)
    (h : infer_project_path fs (JsonVal.obj kvs) = some p)
    (hp : p.isEmpty = false)
    (hw : w content
        (dumps (JsonVal.obj (setKey kvs projectPathKey (JsonVal.str p))) ++ ['\n']) =
      (false, d)) :
    process_rest fs w kvs content true = ⟨.failed, none, d, none⟩ := by
  unfold process_rest
  rw [h]
  dsimp only
  rw [if_neg (by simp [hp])]
  rw [if_pos rfl]
  rw [hw]

theorem inferFromEvidence_sound (fs : FS) (payload : JsonVal) (p : List Char)
    (h : inferFromEvidence fs payload = some p) :
    ∃ b, is_abs_dir fs b = true ∧ p = normalize_path fs b := by
  unfold inferFromEvidence at h
  by_cases hc : extractCands payload = []
  · rw [if_pos hc] at h
    exact absurd h (by simp)
  · rw [if_neg hc] at h
    dsimp only at h
    by_cases hlow : (rankedTop (rankedOf fs payload)).1 < 10
    · rw [if_pos hlow] at h
      exact absurd h (by simp)
    · rw [if_neg hlow] at h
      by_cases hdir : (!is_abs_dir fs (rankedTop (rankedOf fs payload)).2) = true
      · rw [if_pos hdir] at h
        exact absurd h (by simp)
      · rw [if_neg hdir] at h
        refine ⟨(rankedTop (rankedOf fs payload)).2, by simpa using hdir, ?_⟩
        exact (Option.some.injEq _ _).mp h.symm

theorem infer_sound (fs : FS) (payload : JsonVal) (p : List Char)
    (h : infer_project_path fs payload = some p) :
    ∃ b, is_abs_dir fs b = true ∧ p = normalize_path fs b := by
  unfold infer_project_path at h
  cases hk : getKey payload projectPathKey with
  | none =>
    rw [hk] at h
    exact inferFromEvidence_sound fs payload p h
  | some v =>
    rw [hk] at h
    cases v with
    | str s =>
      dsimp only at h
      by_cases hd : is_abs_dir fs s = true
      · rw [if_pos hd] at h
        exact ⟨s, hd, ((Option.some.injEq _ _).mp h.symm)⟩
      · rw [if_neg hd] at h
        exact inferFromEvidence_sound fs payload p h
    | null => exact inferFromEvidence_sound fs payload p h
    | bool b => exact inferFromEvidence_sound fs payload p h
    | num n => exact inferFromEvidence_sound fs payload p h
    | arr a => exact inferFromEvidence_sound fs payload p h
    | obj o => exact inferFromEvidence_sound fs payload p h

theorem infer_none_of_bad_top (fs : FS) (kvs : List (List Char × JsonVal))
    (hnv : existingValid fs kvs = false)
    (hbad : (rankedTop (rankedOf fs (JsonVal.obj kvs))).1 < 10 ∨
      is_abs_dir fs (rankedTop (rankedOf fs (JsonVal.obj kvs))).2 = false) :
    infer_project_path fs (JsonVal.obj kvs) = none := by
  have hev : inferFromEvidence fs (JsonVal.obj kvs) = none := by
    unfold inferFromEvidence
    by_cases hc : extractCands (JsonVal.obj kvs) = []
    · rw [if_pos hc]
    · rw [if_neg hc]
      dsimp only
      by_cases hlow : (rankedTop (rankedOf fs (JsonVal.obj kvs))).1 < 10
      · rw [if_pos hlow]
      · rw [if_neg hlow]
        rcases hbad with hbad | hbad
        · exact absurd hbad hlow
        · rw [if_pos (by rw [hbad]; rfl)]
  unfold infer_project_path
  unfold existingValid at hnv
  cases hke : getKey (JsonVal.obj kvs) projectPathKey with
  | none => exact hev
  | some v =>
    cases v with
    | str s =>
      dsimp only
      have hks : lookupKey kvs projectPathKey = some (JsonVal.str s) := hke
      rw [hks] at hnv
      dsimp only at hnv
      rw [if_neg (by simp [hnv])]
      exact hev
    | null => exact hev
    | bool b => exact hev
    | num n => exact hev
    | arr a => exact hev
    | obj o => exact hev

theorem inferFromEvidence_correct (fs : FS) (payload : JsonVal) (p : List Char)
    (h : inferFromEvidence fs payload = some p) :
    10 ≤ (rankedTop (rankedOf fs payload)).1 ∧
    is_abs_dir fs (rankedTop (rankedOf fs payload)).2 = true ∧
    p = normalize_path fs (rankedTop (rankedOf fs payload)).2 := by
  unfold inferFromEvidence at h
  by_cases hc : extractCands payload = []
  · rw [if_pos hc] at h
    exact absurd h (by simp)
  · rw [if_neg hc] at h
    dsimp only at h
    by_cases hlow : (rankedTop (rankedOf fs payload)).1 < 10
    · rw [if_pos hlow] at h
      exact absurd h (by simp)
    · rw [if_neg hlow] at h
      by_cases hdir : (!is_abs_dir fs (rankedTop (rankedOf fs payload)).2) = true
      · rw [if_pos hdir] at h
        exact absurd h (by simp)
      · rw [if_neg hdir] at h
        exact ⟨by omega, by simpa using hdir, (Option.some.inj h).symm⟩

theorem infer_eq_evidence (fs : FS) (kvs : List (List Char × JsonVal))
    (hnv : existingValid fs kvs = false) :
    infer_project_path fs (JsonVal.obj kvs) = inferFromEvidence fs (JsonVal.obj kvs) := by
  unfold infer_project_path
  unfold existingValid at hnv
  cases hke : getKey (JsonVal.obj kvs) projectPathKey with
  | none => rfl
  | some v =>
    cases v with
    | str s =>
      have hks : lookupKey kvs projectPathKey = some (JsonVal.str s) := hke
      rw [hks] at hnv
      dsimp only at hnv ⊢
      rw [if_neg (by simp [hnv])]
    | null => rfl
    | bool b => rfl
    | num n => rfl
    | arr a => rfl
    | obj o => rfl

/-- C4: for a record without a valid existing `project_path`, inference
never resolves to a weak candidate: whatever it resolves to is the
top-ranked candidate, whose score is at least the threshold 10 and which
passes the directory-existence check, reported in normalized form; and
whenever the top-ranked candidate scores below 10 or fails the directory
check, inference yields no candidate and the record's disposition is
`skipped` with the file untouched, not an update with a weak guess. -/
theorem threshold_correctness (parse : List Char → Option JsonVal) (fs : FS)
    (w : WriteOracle) (content : List Char) (write verbose : Bool)
    (kvs : List (List Char × JsonVal))
    (hp : parse content = some (JsonVal.obj kvs))
    (hnv : existingValid fs kvs = false) :
    (∀ q, infer_project_path fs (JsonVal.obj kvs) = some q →
      10 ≤ (rankedTop (rankedOf fs (JsonVal.obj kvs))).1 ∧
      is_abs_dir fs (rankedTop (rankedOf fs (JsonVal.obj kvs))).2 = true ∧
      q = normalize_path fs (rankedTop (rankedOf fs (JsonVal.obj kvs))).2) ∧
    (((rankedTop (rankedOf fs (JsonVal.obj kvs))).1 < 10 ∨
        is_abs_dir fs (rankedTop (rankedOf fs (JsonVal.obj kvs))).2 = false) →
      infer_project_path fs (JsonVal.obj kvs) = none ∧
        process_file parse fs w content write verbose =
          ⟨.skipped, none, content, none⟩) := by
  constructor
  · intro q hq
    rw [infer_eq_evidence fs kvs hnv] at hq
    exact inferFromEvidence_correct fs (JsonVal.obj kvs) q hq
  · intro hbad
    have hnone := infer_none_of_bad_top fs kvs hnv hbad
    refine ⟨hnone, ?_⟩
    rw [process_file_not_existing parse fs w content write verbose kvs hp hnv]
    exact process_rest_none fs w kvs content write hnone

/-- Witness for `threshold_correctness`: on a filesystem with no existing
directories, a record titled `/a` ranks `/a` on top with score 20, yet the
directory check fails, so inference yields nothing and the record is
skipped. -/
theorem threshold_correctness_witness :
    infer_project_path fsNone (JsonVal.obj kvsC4) = none ∧
    process_file parseC4 fsNone wOk fileC4 true false =
      ⟨.skipped, none, fileC4, none⟩ := by
  have h := threshold_correctness parseC4 fsNone wOk fileC4 true false kvsC4
    (by decide) (by decide)
  exact h.2 (Or.inr (by decide))

/-- C5: a record whose `project_path` is already a string passing the
directory check is skipped with the normalized existing value reported; the
file content is left byte-for-byte unchanged and nothing is written,
regardless of the record's other fields. -/
theorem existing_project_path_authoritative (parse : List Char → Option JsonVal)
    (fs : FS) (w : WriteOracle) (content : List Char) (write verbose : Bool)
    (kvs : List (List Char × JsonVal)) (s : List Char)
    (hp : parse content = some (JsonVal.obj kvs))
    (hk : lookupKey kvs projectPathKey = some (JsonVal.str s))
    (hd : is_abs_dir fs s = true) :
    process_file parse fs w content write verbose =
      ⟨.skipped, some (normalize_path fs s), content, none⟩ :=
  process_file_existing_eq parse fs w content write verbose kvs s hp hk hd

/-- Witness for `existing_project_path_authoritative`: a record with a valid
`project_path` and a sentinel marker for a different path in its turns is
skipped, reporting the existing value, with the file bytes unchanged. -/
theorem existing_project_path_authoritative_witness :
    process_file parseC5 fsYes wOk fileC5 true false =
      ⟨.skipped, some (normalize_path fsYes ("/work/proj".toList)), fileC5, none⟩ :=
  existing_project_path_authoritative parseC5 fsYes wOk fileC5 true false kvsC5
    ("/work/proj".toList) (by decide) (by decide) (by decide)

theorem process_rest_dry_disk (fs : FS) (w : WriteOracle)
    (kvs : List (List Char × JsonVal)) (content : List Char) :
    (process_rest fs w kvs content false).disk = content := by
  unfold process_rest
  cases infer_project_path fs (JsonVal.obj kvs) with
  | none => rfl
  | some p =>
    dsimp only
    by_cases hp : p.isEmpty = true
    · rw [if_pos hp]
    · rw [if_neg hp]
      rfl

theorem process_file_dry_disk (parse : List Char → Option JsonVal) (fs : FS)
    (w : WriteOracle) (verbose : Bool) (content : List Char) :
    (process_file parse fs w content false verbose).disk = content := by
  unfold process_file
  cases parse content with
  | none => rfl
  | some v =>
    cases v with
    | obj kvs =>
      dsimp only
      cases lookupKey kvs projectPathKey with
      | none => exact process_rest_dry_disk fs w kvs content
      | some u =>
        cases u with
        | str s =>
          dsimp only
          by_cases hd : is_abs_dir fs s = true
          · rw [if_pos hd]
          · rw [if_neg hd]
            exact process_rest_dry_disk fs w kvs content
        | null => exact process_rest_dry_disk fs w kvs content
        | bool b => exact process_rest_dry_disk fs w kvs content
        | num n => exact process_rest_dry_disk fs w kvs content
        | arr a => exact process_rest_dry_disk fs w kvs content
        | obj o => exact process_rest_dry_disk fs w kvs content
    | null => rfl
    | bool b => rfl
    | num n => rfl
    | str s => rfl
    | arr a => rfl

/-- C7: in dry-run mode (write flag absent) the bytes of every record file
are unchanged after processing, whatever disposition is reported — both for
a single file and across a whole batch run. -/
theorem dry_run_pure (parse : List Char → Option JsonVal) (fs : FS)
    (w : WriteOracle) (verbose : Bool) :
    (∀ content, (process_file parse fs w content false verbose).disk = content) ∧
    (∀ files, (runBatch parse fs w false verbose files).contents = files) := by
  refine ⟨process_file_dry_disk parse fs w verbose, ?_⟩
  intro files
  induction files with
  | nil => rfl
  | cons c cs ih =>
    unfold runBatch
    dsimp only
    rw [process_file_dry_disk parse fs w verbose c, ih]

theorem process_rest_dry_disp (fs : FS) (w : WriteOracle)
    (kvs : List (List Char × JsonVal)) (content : List Char) :
    (process_rest fs w kvs content false).disp ≠ .failed := by
  unfold process_rest
  cases infer_project_path fs (JsonVal.obj kvs) with
  | none => simp
  | some p =>
    dsimp only
    by_cases hp : p.isEmpty = true
    · rw [if_pos hp]
      simp
    · rw [if_neg hp]
      intro hcon
      exact Disposition.noConfusion hcon

/-- C10: in dry-run mode a record's disposition is `failed` exactly when its
content does not parse to a dict-shaped payload — the write-error branch is
unreachable with the write flag absent, so no other cause of `failed`
exists. -/
theorem dry_run_failed_iff_unparsable (parse : List Char → Option JsonVal)
    (fs : FS) (w : WriteOracle) (verbose : Bool) (content : List Char) :
    (process_file parse fs w content false verbose).disp = .failed ↔
      ¬ ∃ kvs, parse content = some (JsonVal.obj kvs) := by
  cases hp : parse content with
  | none =>
    rw [process_file_parse_fail parse fs w content false verbose hp]
    refine ⟨fun _ => ?_, fun _ => rfl⟩
    rintro ⟨kvs, hk⟩
    exact Option.noConfusion hk
  | some v =>
    cases v with
    | obj kvs =>
      constructor
      · intro hdisp
        exfalso
        cases hke : lookupKey kvs projectPathKey with
        | some u =>
          cases u with
          | str s =>
            by_cases hd : is_abs_dir fs s = true
            · rw [process_file_existing_eq parse fs w content false verbose kvs s hp hke hd]
                at hdisp
              exact Disposition.noConfusion hdisp
            · have hnv : existingValid fs kvs = false := by
                unfold existingValid
                rw [hke]
                simpa using hd
              rw [process_file_not_existing parse fs w content false verbose kvs hp hnv]
                at hdisp
              exact process_rest_dry_disp fs w kvs content hdisp
          | null =>
            rw [process_file_not_existing parse fs w content false verbose kvs hp
              (by unfold existingValid; rw [hke])] at hdisp
            exact process_rest_dry_disp fs w kvs content hdisp
          | bool b =>
            rw [process_file_not_existing parse fs w content false verbose kvs hp
              (by unfold existingValid; rw [hke])] at hdisp
            exact process_rest_dry_disp fs w kvs content hdisp
          | num n =>
            rw [process_file_not_existing parse fs w content false verbose kvs hp
              (by unfold existingValid; rw [hke])] at hdisp
            exact process_rest_dry_disp fs w kvs content hdisp
          | arr a =>
            rw [process_file_not_existing parse fs w content false verbose kvs hp
              (by unfold existingValid; rw [hke])] at hdisp
            exact process_rest_dry_disp fs w kvs content hdisp
          | obj o =>
            rw [process_file_not_existing parse fs w content false verbose kvs hp
              (by unfold existingValid; rw [hke])] at hdisp
            exact process_rest_dry_disp fs w kvs content hdisp
        | none =>
          rw [process_file_not_existing parse fs w content false verbose kvs hp
            (by unfold existingValid; rw [hke])] at hdisp
          exact process_rest_dry_disp fs w kvs content hdisp
      · intro hne
        exact absurd ⟨kvs, rfl⟩ hne
    | null =>
      rw [process_file_not_dict parse fs w content false verbose _ hp
        (fun kvs h => JsonVal.noConfusion h)]
      refine ⟨fun _ => ?_, fun _ => rfl⟩
      rintro ⟨kvs2, hk⟩
      exact JsonVal.noConfusion (Option.some.inj hk)
    | bool b =>
      rw [process_file_not_dict parse fs w content false verbose _ hp
        (fun kvs h => JsonVal.noConfusion h)]
      refine ⟨fun _ => ?_, fun _ => rfl⟩
      rintro ⟨kvs2, hk⟩
      exact JsonVal.noConfusion (Option.some.inj hk)
    | num n =>
      rw [process_file_not_dict parse fs w content false verbose _ hp
        (fun kvs h => JsonVal.noConfusion h)]
      refine ⟨fun _ => ?_, fun _ => rfl⟩
      rintro ⟨kvs2, hk⟩
      exact JsonVal.noConfusion (Option.some.inj hk)
    | str s =>
      rw [process_file_not_dict parse fs w content false verbose _ hp
        (fun kvs h => JsonVal.noConfusion h)]
      refine ⟨fun _ => ?_, fun _ => rfl⟩
      rintro ⟨kvs2, hk⟩
      exact JsonVal.noConfusion (Option.some.inj hk)
    | arr a =>
      rw [process_file_not_dict parse fs w content false verbose _ hp
        (fun kvs h => JsonVal.noConfusion h)]
      refine ⟨fun _ => ?_, fun _ => rfl⟩
      rintro ⟨kvs2, hk⟩
      exact JsonVal.noConfusion (Option.some.inj hk)

/-- C8 (counterexample): when a write fails after a valid inference the
disposition is `failed`, but the on-disk content is not necessarily what it
was before the attempt: `write_text` truncates before writing, so a failing
primitive can leave partial content (here `XX`), and the code takes no step
to restore the prior bytes. -/
theorem write_failure_not_restored :
    (process_file parseA fsYes wBad fileA true false).disp = .failed ∧
    (process_file parseA fsYes wBad fileA true false).disk ≠ fileA := by
  decide

/-- C8 (amended): when serialization-and-persistence fails in write mode
after a valid inference, the disposition is `failed`, the in-memory
inference is discarded (no resolved path is reported), and the on-disk
content is exactly whatever the failed write primitive left behind — it
equals the prior content precisely when the primitive left the file
untouched, which the code itself does not ensure. -/
theorem write_failure_disposition (parse : List Char → Option JsonVal) (fs : FS)
    (w : WriteOracle) (content : List Char) (verbose : Bool)
    (kvs : List (List Char × JsonVal)) (p d : List Char)
    (hparse : parse content = some (JsonVal.obj kvs))
    (hnv : existingValid fs kvs = false)
    (hinf : infer_project_path fs (JsonVal.obj kvs) = some p)
    (hp : p.isEmpty = false)
    (hw : w content
        (dumps (JsonVal.obj (setKey kvs projectPathKey (JsonVal.str p))) ++ ['\n']) =
      (false, d)) :
    process_file parse fs w content true verbose = ⟨.failed, none, d, none⟩ ∧
      (d = content → (process_file parse fs w content true verbose).disk = content) := by
  have h1 : process_file parse fs w content true verbose = ⟨.failed, none, d, none⟩ := by
    rw [process_file_not_existing parse fs w content true verbose kvs hparse hnv]
    exact process_rest_write_fail fs w kvs content p d hinf hp hw
  exact ⟨h1, fun hd => by rw [h1, hd]⟩

/-- Witness for `write_failure_disposition`: a record with an inferable
path, a write primitive that fails leaving `XX`, disposition `failed` and
the failed write's content on disk. -/
theorem write_failure_disposition_witness :
    process_file parseA fsYes wBad fileA true false =
      ⟨.failed, none, "XX".toList, none⟩ :=
  (write_failure_disposition parseA fsYes wBad fileA false kvsA
    ("/work/proj".toList) ("XX".toList)
    (by decide) (by decide) (by decide) (by decide) (by decide)).1

/-- C9: for every batch run the counters partition: `scanned` equals
`updated + skipped + failed`, since each file contributes exactly one
disposition; and the exit status is `0` exactly when `failed = 0`. -/
theorem batch_counters_partition (parse : List Char → Option JsonVal) (fs : FS)
    (w : WriteOracle) (write verbose : Bool) (files : List (List Char)) :
    (runBatch parse fs w write verbose files).scanned =
        (runBatch parse fs w write verbose files).updated +
        (runBatch parse fs w write verbose files).skipped +
        (runBatch parse fs w write verbose files).failed ∧
    (exitCode (runBatch parse fs w write verbose files) = 0 ↔
      (runBatch parse fs w write verbose files).failed = 0) := by
  constructor
  · induction files with
    | nil => rfl
    | cons c cs ih =>
      show (runBatch parse fs w write verbose (c :: cs)).scanned = _
      unfold runBatch
      dsimp only
      cases hd : (process_file parse fs w c write verbose).disp <;> simp <;> omega
  · unfold exitCode
    by_cases h : (runBatch parse fs w write verbose files).failed = 0
    · rw [if_pos h]
      simp [h]
    · rw [if_neg h]
      simp [h]

theorem lookupKey_setKey (kvs : List (List Char × JsonVal)) (key : List Char)
    (v : JsonVal) : lookupKey (setKey kvs key v) key = some v := by
  induction kvs with
  | nil => simp [setKey, lookupKey]
  | cons kv t ih =>
    obtain ⟨k, u⟩ := kv
    by_cases hk : k = key
    · simp [setKey, hk, lookupKey]
    · simp [setKey, hk, lookupKey, ih]

theorem process_file_cases (parse : List Char → Option JsonVal) (fs : FS)
    (w : WriteOracle) (verbose : Bool) (c : List Char)
    (hw : ∀ o t, w o t = (true, t)) :
    ((process_file parse fs w c true verbose).disk = c ∧
      (process_file parse fs w c true verbose).disp ≠ .updated ∧
      (process_file parse fs w c true verbose).wrote = none) ∨
    (∃ kvs p, parse c = some (JsonVal.obj kvs) ∧
      infer_project_path fs (JsonVal.obj kvs) = some p ∧ p.isEmpty = false ∧
      process_file parse fs w c true verbose =
        ⟨.updated, some p,
          dumps (JsonVal.obj (setKey kvs projectPathKey (JsonVal.str p))) ++ ['\n'],
          some (JsonVal.obj (setKey kvs projectPathKey (JsonVal.str p)))⟩) := by
  cases hp : parse c with
  | none =>
    left
    rw [process_file_parse_fail parse fs w c true verbose hp]
    exact ⟨rfl, fun h => Disposition.noConfusion h, rfl⟩
  | some v =>
    cases v with
    | obj kvs =>
      by_cases hev : existingValid fs kvs = true
      · left
        unfold existingValid at hev
        cases hke : lookupKey kvs projectPathKey with
        | none => rw [hke] at hev; simp at hev
        | some u =>
          cases u with
          | str s =>
            rw [hke] at hev
            dsimp only at hev
            rw [process_file_existing_eq parse fs w c true verbose kvs s hp hke hev]
            exact ⟨rfl, fun h => Disposition.noConfusion h, rfl⟩
          | null => rw [hke] at hev; simp at hev
          | bool b => rw [hke] at hev; simp at hev
          | num n => rw [hke] at hev; simp at hev
          | arr a => rw [hke] at hev; simp at hev
          | obj o => rw [hke] at hev; simp at hev
      · have hnv : existingValid fs kvs = false := by simpa using hev
        rw [process_file_not_existing parse fs w c true verbose kvs hp hnv]
        cases hinf : infer_project_path fs (JsonVal.obj kvs) with
        | none =>
          left
          rw [process_rest_none fs w kvs c true hinf]
          exact ⟨rfl, fun h => Disposition.noConfusion h, rfl⟩
        | some p =>
          by_cases hpe : p.isEmpty = true
          · left
            rw [process_rest_empty fs w kvs c true p hinf hpe]
            exact ⟨rfl, fun h => Disposition.noConfusion h, rfl⟩
          · right
            have hpf : p.isEmpty = false := by simpa using hpe
            refine ⟨kvs, p, rfl, hinf, hpf, ?_⟩
            exact process_rest_write_ok fs w kvs c p hinf hpf (hw c _)
    | null =>
      left
      rw [process_file_not_dict parse fs w c true verbose _ hp
        (fun kvs h => JsonVal.noConfusion h)]
      exact ⟨rfl, fun h => Disposition.noConfusion h, rfl⟩
    | bool b =>
      left
      rw [process_file_not_dict parse fs w c true verbose _ hp
        (fun kvs h => JsonVal.noConfusion h)]
      exact ⟨rfl, fun h => Disposition.noConfusion h, rfl⟩
    | num n =>
      left
      rw [process_file_not_dict parse fs w c true verbose _ hp
        (fun kvs h => JsonVal.noConfusion h)]
      exact ⟨rfl, fun h => Disposition.noConfusion h, rfl⟩
    | str s =>
      left
      rw [process_file_not_dict parse fs w c true verbose _ hp
        (fun kvs h => JsonVal.noConfusion h)]
      exact ⟨rfl, fun h => Disposition.noConfusion h, rfl⟩
    | arr a =>
      left
      rw [process_file_not_dict parse fs w c true verbose _ hp
        (fun kvs h => JsonVal.noConfusion h)]
      exact ⟨rfl, fun h => Disposition.noConfusion h, rfl⟩

theorem process_file_second_run (parse : List Char → Option JsonVal) (fs : FS)
    (w : WriteOracle) (verbose : Bool) (c : List Char)
    (hw : ∀ o t, w o t = (true, t))
    (hfs : ∀ s, is_abs_dir fs s = true → is_abs_dir fs (normalize_path fs s) = true)
    (hrt : ∀ v, (process_file parse fs w c true verbose).wrote = some v →
      parse (dumps v ++ ['\n']) = some v) :
    (process_file parse fs w (process_file parse fs w c true verbose).disk
        true verbose).disk = (process_file parse fs w c true verbose).disk ∧
    (process_file parse fs w (process_file parse fs w c true verbose).disk
        true verbose).disp ≠ .updated ∧
    ((process_file parse fs w c true verbose).disp = .updated →
      (process_file parse fs w (process_file parse fs w c true verbose).disk
          true verbose).disp = .skipped) := by
  rcases process_file_cases parse fs w verbose c hw with
    ⟨hd, hnu, _⟩ | ⟨kvs, p, hp, hinf, hpe, heq⟩
  · rw [hd]
    exact ⟨hd, hnu, fun hu => absurd hu hnu⟩
  · have hparse2 : parse (dumps (JsonVal.obj (setKey kvs projectPathKey (JsonVal.str p)))
        ++ ['\n']) = some (JsonVal.obj (setKey kvs projectPathKey (JsonVal.str p))) := by
      apply hrt
      rw [heq]
    rcases infer_sound fs (JsonVal.obj kvs) p hinf with ⟨b, hb, hpb⟩
    have habs : is_abs_dir fs p = true := by
      rw [hpb]
      exact hfs b hb
    have hsecond := process_file_existing_eq parse fs w
      (dumps (JsonVal.obj (setKey kvs projectPathKey (JsonVal.str p))) ++ ['\n'])
      true verbose (setKey kvs projectPathKey (JsonVal.str p)) p hparse2
      (lookupKey_setKey kvs projectPathKey (JsonVal.str p)) habs
    rw [heq]
    dsimp only
    rw [hsecond]
    exact ⟨rfl, fun h => Disposition.noConfusion h, fun _ => rfl⟩

theorem runBatch_cons_contents (parse : List Char → Option JsonVal) (fs : FS)
    (w : WriteOracle) (write verbose : Bool) (c : List Char) (cs : List (List Char)) :
    (runBatch parse fs w write verbose (c :: cs)).contents =
      (process_file parse fs w c write verbose).disk ::
        (runBatch parse fs w write verbose cs).contents := rfl

theorem runBatch_cons_disps (parse : List Char → Option JsonVal) (fs : FS)
    (w : WriteOracle) (write verbose : Bool) (c : List Char) (cs : List (List Char)) :
    (runBatch parse fs w write verbose (c :: cs)).disps =
      (process_file parse fs w c write verbose).disp ::
        (runBatch parse fs w write verbose cs).disps := rfl

theorem runBatch_cons_updated (parse : List Char → Option JsonVal) (fs : FS)
    (w : WriteOracle) (write verbose : Bool) (c : List Char) (cs : List (List Char)) :
    (runBatch parse fs w write verbose (c :: cs)).updated =
      (if (process_file parse fs w c write verbose).disp = .updated then 1 else 0) +
        (runBatch parse fs w write verbose cs).updated := rfl

theorem runBatch_cons_writes (parse : List Char → Option JsonVal) (fs : FS)
    (w : WriteOracle) (write verbose : Bool) (c : List Char) (cs : List (List Char)) :
    (runBatch parse fs w write verbose (c :: cs)).writes =
      (process_file parse fs w c write verbose).wrote.toList ++
        (runBatch parse fs w write verbose cs).writes := rfl

/-- C6: running the engine in write mode twice over the same directory is
idempotent, provided the filesystem is otherwise unchanged — writes succeed
leaving exactly the written text, directory existence is stable under
normalization, and re-reading a file the engine wrote parses back to the
written payload.  File contents after the second run equal those after the
first, the second run reports zero updated records, and every record
updated in the first run is skipped in the second. -/
theorem write_mode_idempotent (parse : List Char → Option JsonVal) (fs : FS)
    (w : WriteOracle) (verbose : Bool) (files : List (List Char))
    (hw : ∀ o t, w o t = (true, t))
    (hfs : ∀ s, is_abs_dir fs s = true → is_abs_dir fs (normalize_path fs s) = true)
    (hrt : ∀ v, v ∈ (runBatch parse fs w true verbose files).writes →
      parse (dumps v ++ ['\n']) = some v) :
    (runBatch parse fs w true verbose
        (runBatch parse fs w true verbose files).contents).contents =
      (runBatch parse fs w true verbose files).contents ∧
    (runBatch parse fs w true verbose
        (runBatch parse fs w true verbose files).contents).updated = 0 ∧
    ∀ i, (runBatch parse fs w true verbose files).disps.get? i = some .updated →
      (runBatch parse fs w true verbose
          (runBatch parse fs w true verbose files).contents).disps.get? i =
        some .skipped := by
  induction files with
  | nil =>
    exact ⟨rfl, rfl, fun i h => Option.noConfusion h⟩
  | cons c cs ih =>
    have hrt1 : ∀ v, (process_file parse fs w c true verbose).wrote = some v →
        parse (dumps v ++ ['\n']) = some v := by
      intro v hv
      apply hrt
      rw [runBatch_cons_writes, hv]
      exact List.mem_append_left _ (by simp)
    have hrt2 : ∀ v, v ∈ (runBatch parse fs w true verbose cs).writes →
        parse (dumps v ++ ['\n']) = some v := by
      intro v hv
      apply hrt
      rw [runBatch_cons_writes]
      exact List.mem_append_right _ hv
    obtain ⟨ihc, ihu, ihd⟩ := ih hrt2
    obtain ⟨hfd, hfn, hfu⟩ := process_file_second_run parse fs w verbose c hw hfs hrt1
    refine ⟨?_, ?_, ?_⟩
    · rw [runBatch_cons_contents parse fs w true verbose c cs,
        runBatch_cons_contents parse fs w true verbose _ _, hfd, ihc]
    · rw [runBatch_cons_contents parse fs w true verbose c cs,
        runBatch_cons_updated parse fs w true verbose _ _, if_neg hfn, ihu]
    · intro i h
      rw [runBatch_cons_contents parse fs w true verbose c cs,
        runBatch_cons_disps parse fs w true verbose _ _]
      rw [runBatch_cons_disps parse fs w true verbose c cs] at h
      cases i with
      | zero =>
        have hd1 : (process_file parse fs w c true verbose).disp = .updated :=
          Option.some.inj h
        show some _ = some _
        rw [hfu hd1]
      | succ j =>
        exact ihd j h

/-- Witness for `write_mode_idempotent`: one record file whose title infers
`/work/proj`; the first run updates it (disposition `updated` at index 0)
and the second run leaves contents unchanged, reports zero updates, and
skips the previously updated record. -/
theorem write_mode_idempotent_witness :
    (runBatch parseA fsYes wOk true false
        (runBatch parseA fsYes wOk true false [fileA]).contents).contents =
      (runBatch parseA fsYes wOk true false [fileA]).contents ∧
    (runBatch parseA fsYes wOk true false
        (runBatch parseA fsYes wOk true false [fileA]).contents).updated = 0 ∧
    (runBatch parseA fsYes wOk true false [fileA]).disps.get? 0 =
      some .updated ∧
    (runBatch parseA fsYes wOk true false
        (runBatch parseA fsYes wOk true false [fileA]).contents).disps.get? 0 =
      some .skipped := by
  have h := write_mode_idempotent parseA fsYes wOk false [fileA]
    (fun o t => rfl) (fun s hs => hs) (by decide)
  exact ⟨h.1, h.2.1, by decide, h.2.2 0 (by decide)⟩
